import Mathlib

/-!
# Verification of the rolling CRC-32 engine

A shallow embedding, in Lean 4, of the rolling CRC-32 library
(`src/rollcrc.rs` and `src/lib.rs`).  Machine integers (`u32`) are
modelled as `Nat` values below `2 ^ 32`; every arithmetic step of the
source is mirrored explicitly (`&&& 0xff` masks, `>>>` shifts, wrapping
subtraction).  A 256-entry `[u32; 256]` table is modelled as a
`List Nat` of length 256, indexed with `List.getD _ _ 0`; `Vec<u8>` is a
`List Nat`; fallible steps of `RollingCRC::push` (the internal `assert!`,
the `expect` on the stored open CRC, and slice indexing) are modelled by
an `Option` result, `none` standing for a panic.

Definitions are followed by the theorems checking the specification's
claims about the code.
-/

/-- `POLY_CRC` from `rollcrc.rs`: the standard reflected CRC-32 polynomial. -/
def POLY_CRC : Nat := 0xEDB88320

/-- `INIT_CRC` from `rollcrc.rs`: `!0` on `u32`, i.e. `0xFFFFFFFF`. -/
def INIT_CRC : Nat := 0xFFFFFFFF

/-- A CRC table: the model of `[u32; 256]` (`type CRCTable`). -/
def CRCTable : Type := List Nat

/-- Rust `u32::wrapping_sub a b` for `a b < 2 ^ 32`. -/
def wrappingSub32 (a b : Nat) : Nat := (2 ^ 32 + a - b % 2 ^ 32) % 2 ^ 32

/-- Rust bitwise complement `!a` on `u32` (for `a < 2 ^ 32`). -/
def not32 (a : Nat) : Nat := 0xFFFFFFFF ^^^ a

/-- Table lookup `t[i]` on a `CRCTable`. Every lookup performed by the
source is at an index `< 256`, so the default value is never produced on
the paths we verify. -/
def tblGet (t : CRCTable) (i : Nat) : Nat := List.getD t i 0

/-- `update_crc` from `rollcrc.rs`:
`crc_table[((crc ^ (c as u32)) & 0xff) as usize] ^ (crc >> 8)`. -/
def update_crc (crc : Nat) (crc_table : CRCTable) (c : Nat) : Nat :=
  tblGet crc_table ((crc ^^^ c) &&& 0xff) ^^^ (crc >>> 8)

/-- `finish_crc` from `rollcrc.rs`: XOR with `INIT_CRC`. -/
def finish_crc (crc : Nat) : Nat := crc ^^^ INIT_CRC

/-- `calc_crc` from `rollcrc.rs`: fold `update_crc` over the buffer
starting from `INIT_CRC`, then `finish_crc` the result. -/
def calc_crc (buf : List Nat) (crc_table : CRCTable) : Nat :=
  finish_crc (buf.foldl (fun crc c => update_crc crc crc_table c) INIT_CRC)

/-- One shift-and-conditional-XOR step
`r = (r >> 1) ^ (POLY_CRC & !(u32::wrapping_sub(r & 1, 1)))`
appearing in `make_crc_table` (and in the classic bit-serial
construction in the tests). -/
def crcRStep (r : Nat) : Nat :=
  (r >>> 1) ^^^ (POLY_CRC &&& not32 (wrappingSub32 (r &&& 1) 1))

/-- `make_crc_table` from `rollcrc.rs` (the bootstrap-doubling
construction): seed entries 0 and 128, fill entries 64, 32, …, 1 by
iterating `crcRStep` on the seed, then complete every remaining entry by
XOR-combining entries at power-of-two indices. -/
def make_crc_table (seed : Nat) : CRCTable :=
  let t : CRCTable := ((List.replicate 256 0).set 0 0).set 128 seed
  let p := [64, 32, 16, 8, 4, 2, 1].foldl
    (fun (p : CRCTable × Nat) i =>
      let r := crcRStep p.2
      (p.1.set i r, r)) (t, seed)
  [2, 4, 8, 16, 32, 64, 128].foldl
    (fun t i => (List.range' 1 (i - 1)).foldl
      (fun t j => t.set (i + j) (tblGet t i ^^^ tblGet t j)) t) p.1

/-- The process-wide CRC table (`CRC_TABLE` in `lib.rs`, built by
`lazy_static` as `make_crc_table(&mut crc_table, POLY_CRC)`). -/
def CRC_TABLE : CRCTable := make_crc_table POLY_CRC

/-- `make_rolling_crc_table_slow` from `rollcrc.rs`: for each byte `c`,
run the `x` chain (`c` followed by `winsize` zero bytes) and the `y`
chain (`winsize` zero bytes) from `INIT_CRC` and store their XOR. -/
def make_rolling_crc_table_slow (winsize : Nat) (crc_table : CRCTable) : CRCTable :=
  (List.range 256).foldl
    (fun rolling_crc_table c =>
      let x := INIT_CRC
      let y := INIT_CRC
      let x := update_crc x crc_table c
      let y := update_crc y crc_table 0
      let p := (List.range (winsize - 1)).foldl
        (fun (p : Nat × Nat) _ => (update_crc p.1 crc_table 0, update_crc p.2 crc_table 0))
        (x, y)
      let x := update_crc p.1 crc_table 0
      rolling_crc_table.set c (x ^^^ p.2))
    (List.replicate 256 0)

/-- `make_rolling_crc_table_fast` from `rollcrc.rs`.  The source guards
it with `assert!(INIT_CRC == 0)`; since `INIT_CRC = 0xFFFFFFFF` here, the
dispatcher below never selects it. -/
def make_rolling_crc_table_fast (winsize : Nat) (crc_table : CRCTable) : CRCTable :=
  let crc := INIT_CRC
  let crc := update_crc crc crc_table 128
  let crc := (List.range winsize).foldl (fun crc _ => update_crc crc crc_table 0) crc
  let crc := finish_crc crc
  make_crc_table crc

/-- `make_rolling_crc_table` from `rollcrc.rs`: dispatch on `INIT_CRC`. -/
def make_rolling_crc_table (winsize : Nat) (crc_table : CRCTable) : CRCTable :=
  if INIT_CRC = 0 then make_rolling_crc_table_fast winsize crc_table
  else make_rolling_crc_table_slow winsize crc_table

/-- `RollingCRCContext` from `lib.rs`. -/
structure RollingCRCContext where
  window_size : Nat
  crc_table : CRCTable
  rolling_crc_table : CRCTable

/-- `RollingCRCContext::new` from `lib.rs`: take the shared `CRC_TABLE`
and build the rolling table when `window_size >= 1` (otherwise the
all-zero table is left in place). -/
def RollingCRCContext.new (window_size : Nat) : RollingCRCContext :=
  let crc_table := CRC_TABLE
  let rolling_crc_table :=
    if 1 ≤ window_size then make_rolling_crc_table window_size crc_table
    else List.replicate 256 0
  ⟨window_size, crc_table, rolling_crc_table⟩

/-- `RollingCRCContext::crc` from `lib.rs`: delegate to `calc_crc` with
the context's base table. -/
def RollingCRCContext.crc (ctx : RollingCRCContext) (bytes : List Nat) : Nat :=
  calc_crc bytes ctx.crc_table

/-- `RollingCRC` from `lib.rs`: the mutable engine state. -/
structure RollingCRC where
  context : RollingCRCContext
  count : Nat
  bytes : List Nat
  index : Nat
  last_crc : Option Nat

/-- `RollingCRC::new` from `lib.rs`. -/
def RollingCRC.new (context : RollingCRCContext) : RollingCRC :=
  ⟨context, 0, [], 0, none⟩

/-- `RollingCRC::push` from `lib.rs`.  The result is `none` exactly when
the source would panic: the `assert!(window_size == bytes.len())`, the
out-of-range indexing `bytes[index]`, or the
`expect("internal error: lost CRC")`. -/
def RollingCRC.push (s : RollingCRC) (byte : Nat) : Option (RollingCRC × Option Nat) :=
  let count := s.count + 1
  if s.context.window_size = 0 then
    some ({ s with count := count }, none)
  else if count < s.context.window_size then
    some ({ s with count := count, bytes := s.bytes ++ [byte] }, none)
  else if count = s.context.window_size then
    let bytes := s.bytes ++ [byte]
    let crc := s.context.crc bytes
    some ({ s with count := count, bytes := bytes, last_crc := some (finish_crc crc) },
      some crc)
  else if s.context.window_size = s.bytes.length then
    match s.bytes.get? s.index, s.last_crc with
    | some roll_out, some last_crc =>
      let crc := update_crc last_crc s.context.crc_table byte ^^^
        tblGet s.context.rolling_crc_table roll_out
      let bytes := s.bytes.set s.index byte
      let index := if s.context.window_size ≤ s.index + 1 then 0 else s.index + 1
      some ({ s with count := count, bytes := bytes, index := index, last_crc := some crc },
        some (finish_crc crc))
    | _, _ => none
  else none

/-- `RollingCRCMap::next` from `lib.rs`, run to exhaustion over a finite
byte source: pull a byte, push it, and emit `(count - window_size, crc)`
whenever the push produces a checksum.  `none` models a panic inside
`push`. -/
def pushRun (s : RollingCRC) : List Nat → Option (RollingCRC × List (Nat × Nat))
  | [] => some (s, [])
  | b :: rest =>
    match s.push b with
    | none => none
    | some (s', out) =>
      match pushRun s' rest with
      | none => none
      | some (s'', outs) =>
        some (s'',
          (match out with
           | some crc => [(s'.count - s'.context.window_size, crc)]
           | none => []) ++ outs)

/-- `RollingCRCMapResult::next` from `lib.rs`, run to exhaustion over a
finite source of byte-or-error items: an `Except.error` item is emitted
immediately without touching the engine; an `Except.ok` byte is pushed
exactly as in `pushRun`. -/
def pushRunResult {E : Type} (s : RollingCRC) :
    List (Except E Nat) → Option (RollingCRC × List (Except E (Nat × Nat)))
  | [] => some (s, [])
  | Except.error e :: rest =>
    match pushRunResult s rest with
    | none => none
    | some (s'', outs) => some (s'', Except.error e :: outs)
  | Except.ok b :: rest =>
    match s.push b with
    | none => none
    | some (s', out) =>
      match pushRunResult s' rest with
      | none => none
      | some (s'', outs) =>
        some (s'',
          (match out with
           | some crc => [Except.ok (s'.count - s'.context.window_size, crc)]
           | none => []) ++ outs)

/-- The open (non-finalised) CRC accumulator of a byte sequence: the fold
of `update_crc` over the sequence seeded with `INIT_CRC`, using the
process-wide table.  This is the `CRC_open` of the specification. -/
def crc_open (s : List Nat) : Nat :=
  s.foldl (fun crc c => update_crc crc CRC_TABLE c) INIT_CRC

/-- The same fold seeded with `0` instead of `INIT_CRC`. -/
def crc_open0 (s : List Nat) : Nat :=
  s.foldl (fun crc c => update_crc crc CRC_TABLE c) 0

/-- An independently implemented bit-serial reference CRC-32/ISO-3309
(reflected polynomial `0xEDB88320`): XOR each byte into the accumulator,
run eight conditional shift steps, seed with all-ones and finalise by
XOR with all-ones.  No table is involved. -/
def refBitStep (r : Nat) : Nat :=
  if r % 2 = 1 then (r >>> 1) ^^^ 0xEDB88320 else r >>> 1

/-- Reference CRC-32/ISO-3309 of a byte sequence. -/
def crc32_ref (s : List Nat) : Nat :=
  (s.foldl (fun a c => refBitStep^[8] (a ^^^ c)) 0xFFFFFFFF) ^^^ 0xFFFFFFFF

/-- The checksum sequence the specification predicts for a stream `p`
and window size `w`: one `(i, crc of p[i .. i+w])` pair for each window
start `0 ≤ i ≤ p.length - w`. -/
def specOuts (w : Nat) (p : List Nat) : List (Nat × Nat) :=
  (List.range (p.length + 1 - w)).map
    (fun i => (i, calc_crc ((p.drop i).take w) CRC_TABLE))

/-! ## Bit-level lemmas -/

theorem shiftRight_xor_distrib (a b n : Nat) : (a ^^^ b) >>> n = a >>> n ^^^ b >>> n := by
  apply Nat.eq_of_testBit_eq
  intro i
  simp [Nat.testBit_shiftRight, Nat.testBit_xor]

theorem shiftRight_eq_zero_of_lt (c n : Nat) (h : c < 2 ^ n) : c >>> n = 0 := by
  rw [Nat.shiftRight_eq_div_pow]
  exact Nat.div_eq_of_lt h

theorem xor_mod_two (a b : Nat) : (a ^^^ b) % 2 = a % 2 ^^^ b % 2 := by
  rw [← Nat.and_one_is_mod, ← Nat.and_one_is_mod, ← Nat.and_one_is_mod,
    Nat.and_xor_distrib_right]

/-- The conditional-XOR step of the table builder, in `if` form. -/
theorem crcRStep_eq (r : Nat) :
    crcRStep r = if r % 2 = 1 then (r >>> 1) ^^^ POLY_CRC else r >>> 1 := by
  unfold crcRStep
  rw [Nat.and_one_is_mod]
  rcases Nat.mod_two_eq_zero_or_one r with h | h
  · rw [h, if_neg (by omega)]
    have h0 : POLY_CRC &&& not32 (wrappingSub32 0 1) = 0 := by decide
    rw [h0, Nat.xor_zero]
  · rw [h, if_pos rfl]
    have h1 : POLY_CRC &&& not32 (wrappingSub32 1 1) = POLY_CRC := by decide
    rw [h1]

theorem crcRStep_eq_refBitStep : crcRStep = refBitStep := by
  funext r
  rw [crcRStep_eq]
  rfl

theorem nat_xor_left_comm (a b c : Nat) : a ^^^ (b ^^^ c) = b ^^^ (a ^^^ c) := by
  rw [← Nat.xor_assoc, Nat.xor_comm a b, Nat.xor_assoc]

theorem nat_xor_xor_self (a b : Nat) : a ^^^ (a ^^^ b) = b := by
  rw [← Nat.xor_assoc, Nat.xor_self, Nat.zero_xor]

theorem xor_xor_xor_comm (a b c d : Nat) :
    (a ^^^ b) ^^^ (c ^^^ d) = (a ^^^ c) ^^^ (b ^^^ d) := by
  rw [Nat.xor_assoc a b (c ^^^ d), nat_xor_left_comm b c d, ← Nat.xor_assoc]

theorem crcRStep_linear (a b : Nat) : crcRStep (a ^^^ b) = crcRStep a ^^^ crcRStep b := by
  rw [crcRStep_eq, crcRStep_eq, crcRStep_eq, xor_mod_two]
  rcases Nat.mod_two_eq_zero_or_one a with ha | ha <;>
    rcases Nat.mod_two_eq_zero_or_one b with hb | hb <;>
      simp only [ha, hb] <;> norm_num <;>
        rw [shiftRight_xor_distrib] <;>
          simp [Nat.xor_assoc, Nat.xor_comm, nat_xor_left_comm, nat_xor_xor_self,
            Nat.xor_self, Nat.xor_zero]

theorem iterate_crcRStep_linear (n a b : Nat) :
    crcRStep^[n] (a ^^^ b) = crcRStep^[n] a ^^^ crcRStep^[n] b := by
  induction n generalizing a b with
  | zero => rfl
  | succ n ih =>
    rw [Function.iterate_succ_apply, Function.iterate_succ_apply,
      Function.iterate_succ_apply, crcRStep_linear, ih]

theorem crcRStep_shiftLeft (x k : Nat) : crcRStep (x <<< (k + 1)) = x <<< k := by
  rw [crcRStep_eq]
  have h2 : x <<< (k + 1) % 2 = 0 := by
    rw [Nat.shiftLeft_eq, pow_succ, ← Nat.mul_assoc]
    exact Nat.mul_mod_left _ 2
  rw [if_neg (by omega)]
  rw [Nat.shiftLeft_eq, Nat.shiftLeft_eq, Nat.shiftRight_eq_div_pow, pow_succ,
    ← Nat.mul_assoc, pow_one]
  exact Nat.mul_div_cancel _ (by omega)

theorem iterate_crcRStep_shiftLeft (n x : Nat) : crcRStep^[n] (x <<< n) = x := by
  induction n generalizing x with
  | zero => simp
  | succ n ih =>
    rw [Function.iterate_succ_apply, crcRStep_shiftLeft, ih]

theorem byte_decomp (v : Nat) : v = (v &&& 255) ^^^ ((v >>> 8) <<< 8) := by
  apply Nat.eq_of_testBit_eq
  intro i
  have h255 : (255 : Nat) = 2 ^ 8 - 1 := by norm_num
  rw [Nat.testBit_xor, Nat.testBit_and, h255, Nat.testBit_two_pow_sub_one,
    Nat.testBit_shiftLeft, Nat.testBit_shiftRight]
  by_cases h : i < 8
  · simp [h, Nat.not_le.mpr h]
  · have h8 : 8 + (i - 8) = i := by omega
    simp [h, Nat.le_of_not_lt h, h8]

/-! ## The base table and the single-byte update -/

set_option maxRecDepth 100000 in
/-- Every entry of the bootstrap-doubling table agrees with the classic
bit-serial construction (eight `crcRStep` iterations on the index). -/
theorem tbl_fin_eq : ∀ i : Fin 256, tblGet CRC_TABLE i.val = crcRStep^[8] i.val := by decide

theorem tbl_eq (i : Nat) (hi : i < 256) : tblGet CRC_TABLE i = crcRStep^[8] i :=
  tbl_fin_eq ⟨i, hi⟩

theorem mask_lt (v : Nat) : v &&& 255 < 256 :=
  Nat.lt_succ_of_le (Nat.and_le_right)

theorem update_crc_eq (a c : Nat) :
    update_crc a CRC_TABLE c = crcRStep^[8] ((a ^^^ c) &&& 255) ^^^ (a >>> 8) := by
  unfold update_crc
  rw [tbl_eq _ (mask_lt _)]

/-- The single-byte update as eight bit-serial steps on `a ^^^ c`, for a
byte-sized `c`. -/
theorem update_crc_eq_iterate (a c : Nat) (hc : c < 256) :
    update_crc a CRC_TABLE c = crcRStep^[8] (a ^^^ c) := by
  rw [update_crc_eq]
  have hd := congrArg (crcRStep^[8]) (byte_decomp (a ^^^ c))
  rw [hd, iterate_crcRStep_linear, iterate_crcRStep_shiftLeft,
    shiftRight_xor_distrib, shiftRight_eq_zero_of_lt c 8 (by omega), Nat.xor_zero]

/-- XOR-homomorphism of the single-byte update in the accumulator-byte
pair (over the process-wide table). -/
theorem update_crc_hom (a₁ a₂ c₁ c₂ : Nat) :
    update_crc a₁ CRC_TABLE c₁ ^^^ update_crc a₂ CRC_TABLE c₂ =
      update_crc (a₁ ^^^ a₂) CRC_TABLE (c₁ ^^^ c₂) := by
  rw [update_crc_eq, update_crc_eq, update_crc_eq]
  have hmask : ((a₁ ^^^ a₂) ^^^ (c₁ ^^^ c₂)) &&& 255 =
      ((a₁ ^^^ c₁) &&& 255) ^^^ ((a₂ ^^^ c₂) &&& 255) := by
    rw [← Nat.and_xor_distrib_right, xor_xor_xor_comm]
  rw [hmask, iterate_crcRStep_linear, shiftRight_xor_distrib, xor_xor_xor_comm]

/-- XOR-linearity of the base table over byte indices. -/
theorem tbl_linear (i j : Nat) (hi : i < 256) (hj : j < 256) :
    tblGet CRC_TABLE (i ^^^ j) = tblGet CRC_TABLE i ^^^ tblGet CRC_TABLE j := by
  have hij : i ^^^ j < 256 := Nat.xor_lt_two_pow (n := 8) hi hj
  rw [tbl_eq _ hi, tbl_eq _ hj, tbl_eq _ hij, iterate_crcRStep_linear]

/-! ## Folds of the update rule -/

/-- XOR-homomorphism of the fold of `update_crc` over two equal-length
sequences: the accumulators and the sequences combine bytewise. -/
theorem foldl_update_hom : ∀ (X Y : List Nat) (a₁ a₂ : Nat), X.length = Y.length →
    (X.foldl (fun crc c => update_crc crc CRC_TABLE c) a₁) ^^^
      (Y.foldl (fun crc c => update_crc crc CRC_TABLE c) a₂)
      = (List.zipWith (fun x y => x ^^^ y) X Y).foldl
          (fun crc c => update_crc crc CRC_TABLE c) (a₁ ^^^ a₂)
  | [], [], a₁, a₂, _ => rfl
  | x :: xs, y :: ys, a₁, a₂, h => by
    simp only [List.foldl_cons, List.zipWith_cons_cons]
    rw [foldl_update_hom xs ys _ _ (by simpa using h), update_crc_hom]

theorem crc_open_concat (l : List Nat) (b : Nat) :
    crc_open (l ++ [b]) = update_crc (crc_open l) CRC_TABLE b := by
  unfold crc_open
  rw [List.foldl_concat]

set_option maxRecDepth 100000 in
theorem update_zero_zero : update_crc 0 CRC_TABLE 0 = 0 := by decide

theorem zipWith_xor_replicate_zero_right (l : List Nat) :
    List.zipWith (fun x y => x ^^^ y) l (List.replicate l.length 0) = l := by
  induction l with
  | nil => rfl
  | cons x xs ih => simp [List.replicate_succ, ih]

theorem zipWith_xor_replicate_zero_left (l : List Nat) :
    List.zipWith (fun x y => x ^^^ y) (List.replicate l.length 0) l = l := by
  induction l with
  | nil => rfl
  | cons x xs ih => simp [List.replicate_succ, ih]

/-! ## The rolling table -/

theorem getD_foldl_set (f : Nat → Nat) :
    ∀ (l : List Nat) (t : List Nat) (c : Nat), c < t.length →
      ((l.foldl (fun t k => t.set k (f k)) t).getD c 0
        = if c ∈ l then f c else t.getD c 0)
  | [], _, _, _ => by simp
  | k :: tl, t, c, hc => by
    simp only [List.foldl_cons]
    rw [getD_foldl_set f tl (t.set k (f k)) c (by simpa using hc)]
    by_cases hct : c ∈ tl
    · simp [hct]
    · rcases eq_or_ne c k with hck | hck
      · subst hck
        rw [if_neg hct, if_pos (List.mem_cons_self c tl), List.getD_eq_getElem?_getD,
          List.getElem?_set, if_pos rfl, if_pos hc]
        rfl
      · rw [if_neg hct, if_neg (by simp [List.mem_cons, hck, hct]),
          List.getD_eq_getElem?_getD, List.getElem?_set, if_neg (Ne.symm hck),
          ← List.getD_eq_getElem?_getD]

theorem foldl_pair_split {β : Type} (f g : Nat → Nat) :
    ∀ (l : List β) (a b : Nat),
      l.foldl (fun (p : Nat × Nat) _ => (f p.1, g p.2)) (a, b)
        = (l.foldl (fun x _ => f x) a, l.foldl (fun x _ => g x) b)
  | [], _, _ => rfl
  | _ :: tl, a, b => by
    simp only [List.foldl_cons]
    exact foldl_pair_split f g tl (f a) (g b)

theorem foldl_ignore {β : Type} (u : Nat → Nat) :
    ∀ (l : List β) (a : Nat), l.foldl (fun x _ => u x) a = u^[l.length] a
  | [], _ => rfl
  | b :: tl, a => by
    rw [List.foldl_cons, foldl_ignore u tl (u a), List.length_cons,
      Function.iterate_succ_apply]

theorem foldl_replicate_zero :
    ∀ (n : Nat) (a : Nat),
      (List.replicate n 0).foldl (fun crc c => update_crc crc CRC_TABLE c) a
        = (fun x => update_crc x CRC_TABLE 0)^[n] a
  | 0, _ => rfl
  | n + 1, a => by
    rw [List.replicate_succ, List.foldl_cons, foldl_replicate_zero n _,
      Function.iterate_succ_apply]

/-- The value stored by `make_rolling_crc_table_slow` at index `c`
(the body of its `for c in 0..=255` loop). -/
def slowEntry (winsize c : Nat) (crc_table : CRCTable) : Nat :=
  let x := update_crc INIT_CRC crc_table c
  let y := update_crc INIT_CRC crc_table 0
  let p := (List.range (winsize - 1)).foldl
    (fun (p : Nat × Nat) _ => (update_crc p.1 crc_table 0, update_crc p.2 crc_table 0))
    (x, y)
  update_crc p.1 crc_table 0 ^^^ p.2

theorem make_rolling_crc_table_slow_eq (w : Nat) :
    make_rolling_crc_table_slow w CRC_TABLE
      = (List.range 256).foldl (fun rt c => rt.set c (slowEntry w c CRC_TABLE))
          (List.replicate 256 0) := rfl

theorem slowEntry_eq (w c : Nat) (hw : 1 ≤ w) :
    slowEntry w c CRC_TABLE
      = crc_open (c :: List.replicate w 0) ^^^ crc_open (List.replicate w 0) := by
  dsimp only [slowEntry, crc_open]
  rw [foldl_pair_split (fun x => update_crc x CRC_TABLE 0) (fun x => update_crc x CRC_TABLE 0),
    foldl_ignore (fun x => update_crc x CRC_TABLE 0),
    foldl_ignore (fun x => update_crc x CRC_TABLE 0),
    List.length_range, List.foldl_cons, foldl_replicate_zero, foldl_replicate_zero,
    ← Function.iterate_succ_apply' (fun x => update_crc x CRC_TABLE 0) (w - 1),
    ← Function.iterate_succ_apply (fun x => update_crc x CRC_TABLE 0) (w - 1)]
  have hw1 : w - 1 + 1 = w := by omega
  simp only [Nat.succ_eq_add_one, hw1]

/-- The entry of the rolling table for evicted byte `c` and window size
`w ≥ 1`: the open CRC of `c` followed by `w` zero bytes, XORed with the
open CRC of `w` zero bytes. -/
theorem rolling_table_entry (w c : Nat) (hw : 1 ≤ w) (hc : c < 256) :
    tblGet (make_rolling_crc_table w CRC_TABLE) c
      = crc_open (c :: List.replicate w 0) ^^^ crc_open (List.replicate w 0) := by
  rw [make_rolling_crc_table, if_neg (by decide), make_rolling_crc_table_slow_eq]
  unfold tblGet
  rw [getD_foldl_set _ (List.range 256) _ c (by rw [List.length_replicate]; exact hc),
    if_pos (List.mem_range.mpr hc), slowEntry_eq w c hw]

/-- The rolling update: if the engine holds the open CRC of the window
`c :: t` (length `w`), then updating with the incoming byte `b` and
XORing the rolling-table entry of the evicted byte `c` yields the open
CRC of the shifted window `t ++ [b]`. -/
theorem roll_step (w : Nat) (hw : 1 ≤ w) (c : Nat) (hc : c < 256) (t : List Nat)
    (ht : t.length = w - 1) (b : Nat) :
    update_crc (crc_open (c :: t)) CRC_TABLE b
      ^^^ tblGet (make_rolling_crc_table w CRC_TABLE) c = crc_open (t ++ [b]) := by
  have hlen : (t ++ [b]).length = w := by
    simp only [List.length_append, List.length_cons, List.length_nil, ht]
    omega
  have h1 : update_crc (crc_open (c :: t)) CRC_TABLE b = crc_open (c :: (t ++ [b])) := by
    rw [show c :: (t ++ [b]) = (c :: t) ++ [b] by simp, crc_open_concat]
  have hAB : crc_open (c :: (t ++ [b])) ^^^ crc_open (c :: List.replicate w 0)
      = crc_open0 (t ++ [b]) := by
    unfold crc_open crc_open0
    rw [foldl_update_hom (c :: (t ++ [b])) (c :: List.replicate w 0) INIT_CRC INIT_CRC
      (by simp [hlen])]
    simp only [List.zipWith_cons_cons, Nat.xor_self]
    rw [← hlen, zipWith_xor_replicate_zero_right]
    simp only [List.foldl_cons, update_zero_zero]
  have hC : crc_open (List.replicate w 0) ^^^ crc_open0 (t ++ [b])
      = crc_open (t ++ [b]) := by
    unfold crc_open crc_open0
    rw [foldl_update_hom (List.replicate w 0) (t ++ [b]) INIT_CRC 0 (by simp [hlen]),
      Nat.xor_zero, ← hlen, zipWith_xor_replicate_zero_left]
  rw [h1, rolling_table_entry w c hw hc, ← Nat.xor_assoc, hAB, Nat.xor_comm, hC]

/-! ## Equality with the bit-serial reference CRC-32 -/

theorem foldl_update_eq_ref :
    ∀ (l : List Nat) (a : Nat), (∀ b ∈ l, b < 256) →
      l.foldl (fun crc c => update_crc crc CRC_TABLE c) a
        = l.foldl (fun x c => refBitStep^[8] (x ^^^ c)) a
  | [], _, _ => rfl
  | b :: tl, a, h => by
    rw [List.foldl_cons, List.foldl_cons,
      update_crc_eq_iterate a b (h b (List.mem_cons_self b tl)),
      foldl_update_eq_ref tl _ (fun x hx => h x (List.mem_cons_of_mem b hx)),
      crcRStep_eq_refBitStep]

theorem calc_crc_ref (s : List Nat) (hs : ∀ b ∈ s, b < 256) :
    calc_crc s CRC_TABLE = crc32_ref s := by
  unfold calc_crc crc32_ref finish_crc
  rw [foldl_update_eq_ref s INIT_CRC hs]
  rfl

/-! ## The engine -/

theorem finish_finish (x : Nat) : finish_crc (finish_crc x) = x := by
  unfold finish_crc
  rw [Nat.xor_assoc, Nat.xor_self, Nat.xor_zero]

theorem calc_crc_eq_finish_open (l : List Nat) :
    calc_crc l CRC_TABLE = finish_crc (crc_open l) := rfl

theorem finish_calc (l : List Nat) :
    finish_crc (calc_crc l CRC_TABLE) = crc_open l := by
  rw [calc_crc_eq_finish_open, finish_finish]

theorem ctx_new_window (w : Nat) : (RollingCRCContext.new w).window_size = w := rfl

theorem ctx_new_table (w : Nat) : (RollingCRCContext.new w).crc_table = CRC_TABLE := by
  dsimp only [RollingCRCContext.new]

theorem ctx_new_rolling (w : Nat) (hw : 1 ≤ w) :
    (RollingCRCContext.new w).rolling_crc_table = make_rolling_crc_table w CRC_TABLE := by
  dsimp only [RollingCRCContext.new]
  rw [if_pos hw]

/-- The behaviour of `push` in the Filling state (`count < w` after the
push is counted, `w ≥ 1`): append the byte, return no checksum. -/
theorem push_filling (s : RollingCRC) (b : Nat) (h0 : s.context.window_size ≠ 0)
    (h : s.count + 1 < s.context.window_size) :
    s.push b = some ({ s with count := s.count + 1, bytes := s.bytes ++ [b] }, none) := by
  simp only [RollingCRC.push]
  rw [if_neg h0, if_pos h]

/-- The behaviour of `push` in the First-Full state (`count = w` after
the push is counted): full fold over the window, store its open form,
return the closed checksum. -/
theorem push_first (s : RollingCRC) (b : Nat) (h0 : s.context.window_size ≠ 0)
    (h : s.count + 1 = s.context.window_size) :
    s.push b = some (
      { s with
          count := s.count + 1,
          bytes := s.bytes ++ [b],
          last_crc := some (finish_crc (s.context.crc (s.bytes ++ [b]))) },
      some (s.context.crc (s.bytes ++ [b]))) := by
  simp only [RollingCRC.push]
  rw [if_neg h0, if_neg (by omega), if_pos h]

/-- The behaviour of `push` in the Rolling state (`count > w`), provided
the window is full, the cursor is in range, and an open CRC is stored. -/
theorem push_rolling (s : RollingCRC) (b : Nat) (h0 : s.context.window_size ≠ 0)
    (h : s.context.window_size < s.count + 1)
    (hlen : s.context.window_size = s.bytes.length)
    (r : Nat) (hr : s.bytes.get? s.index = some r)
    (A : Nat) (hA : s.last_crc = some A) :
    s.push b = some (
      { s with
          count := s.count + 1,
          bytes := s.bytes.set s.index b,
          index := if s.context.window_size ≤ s.index + 1 then 0 else s.index + 1,
          last_crc := some (update_crc A s.context.crc_table b ^^^
            tblGet s.context.rolling_crc_table r) },
      some (finish_crc (update_crc A s.context.crc_table b ^^^
        tblGet s.context.rolling_crc_table r))) := by
  simp only [RollingCRC.push]
  rw [if_neg h0, if_neg (by omega), if_neg (by omega), if_pos hlen, hr, hA]

/-- The behaviour of `push` with `window_size = 0`: count the byte,
touch nothing else, return no checksum. -/
theorem push_zero (s : RollingCRC) (b : Nat) (h0 : s.context.window_size = 0) :
    s.push b = some ({ s with count := s.count + 1 }, none) := by
  simp only [RollingCRC.push]
  rw [if_pos h0]

/-- Invariant of an engine (window size `w ≥ 1`) created by
`RollingCRC::new` on the context for `w` that has consumed exactly the
byte stream `p`. -/
def EngineInv (w : Nat) (p : List Nat) (s : RollingCRC) : Prop :=
  s.context = RollingCRCContext.new w ∧
  s.count = p.length ∧
  (p.length < w → s.bytes = p ∧ s.index = 0 ∧ s.last_crc = none) ∧
  (w ≤ p.length →
    s.bytes.length = w ∧ s.index < w ∧
    s.bytes.drop s.index ++ s.bytes.take s.index = p.drop (p.length - w) ∧
    s.last_crc = some (crc_open (p.drop (p.length - w))))

theorem EngineInv_init (w : Nat) (hw : 1 ≤ w) :
    EngineInv w [] (RollingCRC.new (RollingCRCContext.new w)) := by
  refine ⟨rfl, rfl, fun _ => ⟨rfl, rfl, rfl⟩, fun h => absurd h (by simp; omega)⟩

theorem ctx_new_crc (w : Nat) (l : List Nat) :
    (RollingCRCContext.new w).crc l = calc_crc l CRC_TABLE := by
  dsimp only [RollingCRCContext.crc]
  rw [ctx_new_table]

/-- One push preserves the invariant and emits exactly the checksum of
the completed window (when one is complete). -/
theorem push_preserve (w : Nat) (hw : 1 ≤ w) (p : List Nat) (s : RollingCRC) (b : Nat)
    (hInv : EngineInv w p s) (hp : ∀ x ∈ p, x < 256) :
    ∃ s', s.push b = some (s',
        if w ≤ p.length + 1 then
          some (calc_crc ((p ++ [b]).drop (p.length + 1 - w)) CRC_TABLE)
        else none)
      ∧ EngineInv w (p ++ [b]) s' := by
  obtain ⟨hctx, hcount, hfill, hfull⟩ := hInv
  have hwnd : s.context.window_size = w := by rw [hctx, ctx_new_window]
  have h0 : s.context.window_size ≠ 0 := by omega
  have hlenApp : (p ++ [b]).length = p.length + 1 := by simp
  rcases Nat.lt_trichotomy (p.length + 1) w with h1 | h1 | h1
  · -- Filling
    obtain ⟨hbytes, hidx, hlast⟩ := hfill (by omega)
    have hpush := push_filling s b h0 (by omega)
    rw [hcount] at hpush
    rw [if_neg (by omega)]
    refine ⟨_, hpush, hctx, by rw [hlenApp], ?_, ?_⟩
    · intro _
      exact ⟨by rw [hbytes], hidx, hlast⟩
    · intro hcon
      rw [hlenApp] at hcon
      omega
  · -- First-Full
    obtain ⟨hbytes, hidx, hlast⟩ := hfill (by omega)
    have hpush := push_first s b h0 (by omega)
    rw [hbytes, hctx, ctx_new_crc] at hpush
    have hdrop0 : p.length + 1 - w = 0 := by omega
    rw [if_pos (by omega), hdrop0, List.drop_zero]
    refine ⟨_, hpush, rfl, by rw [hlenApp, hcount], ?_, ?_⟩
    · intro hcon
      rw [hlenApp] at hcon
      omega
    · intro _
      refine ⟨by rw [hlenApp]; omega, by rw [hidx]; omega, ?_, ?_⟩
      · show (p ++ [b]).drop s.index ++ (p ++ [b]).take s.index
          = (p ++ [b]).drop ((p ++ [b]).length - w)
        rw [hidx, List.drop_zero, List.take_zero, List.append_nil, hlenApp,
          show p.length + 1 - w = 0 from by omega, List.drop_zero]
      · show some (finish_crc (calc_crc (p ++ [b]) CRC_TABLE))
            = some (crc_open ((p ++ [b]).drop ((p ++ [b]).length - w)))
        rw [hlenApp, show p.length + 1 - w = 0 from by omega, List.drop_zero, finish_calc]
  · -- Rolling
    obtain ⟨hblen, hidx, hrot, hlast⟩ := hfull (by omega)
    have hidx' : s.index < s.bytes.length := by omega
    have hr : s.bytes.get? s.index = some s.bytes[s.index] := by
      rw [List.get?_eq_getElem?, List.getElem?_eq_getElem hidx']
    have hw_win : p.drop (p.length - w)
        = s.bytes[s.index] :: (s.bytes.drop (s.index + 1) ++ s.bytes.take s.index) := by
      rw [← hrot, List.drop_eq_getElem_cons hidx', List.cons_append]
    have hrb : s.bytes[s.index] < 256 := by
      apply hp
      apply List.mem_of_mem_drop (n := p.length - w)
      rw [hw_win]
      exact List.mem_cons_self _ _
    have htake : (s.bytes.take s.index).length = s.index := by
      rw [List.length_take]
      exact inf_eq_left.mpr (by omega)
    have ht : (s.bytes.drop (s.index + 1) ++ s.bytes.take s.index).length = w - 1 := by
      rw [List.length_append, List.length_drop, htake]
      omega
    have hA : s.last_crc = some (crc_open (s.bytes[s.index] ::
        (s.bytes.drop (s.index + 1) ++ s.bytes.take s.index))) := by
      rw [hlast, hw_win]
    have hpush := push_rolling s b h0 (by omega) (by omega) _ hr _ hA
    have hval : update_crc (crc_open (s.bytes[s.index] ::
          (s.bytes.drop (s.index + 1) ++ s.bytes.take s.index))) s.context.crc_table b
        ^^^ tblGet s.context.rolling_crc_table s.bytes[s.index]
        = crc_open ((s.bytes.drop (s.index + 1) ++ s.bytes.take s.index) ++ [b]) := by
      rw [hctx, ctx_new_table, ctx_new_rolling w hw]
      exact roll_step w hw _ hrb _ ht b
    rw [hval, hwnd] at hpush
    have hnew_win : (p ++ [b]).drop (p.length + 1 - w)
        = (s.bytes.drop (s.index + 1) ++ s.bytes.take s.index) ++ [b] := by
      rw [List.drop_append_of_le_length (by omega)]
      congr 1
      rw [show p.length + 1 - w = (p.length - w) + 1 from by omega, ← List.tail_drop, hw_win,
        List.tail_cons]
    have hset : s.bytes.set s.index b
        = s.bytes.take s.index ++ b :: s.bytes.drop (s.index + 1) := by
      rw [List.set_eq_take_append_cons_drop, if_pos hidx']
    rw [if_pos (by omega), hnew_win, calc_crc_eq_finish_open]
    refine ⟨_, hpush, hctx, by rw [hlenApp, hcount], ?_, ?_⟩
    · intro hcon
      rw [hlenApp] at hcon
      omega
    · intro _
      refine ⟨?_, ?_, ?_, ?_⟩
      · show (s.bytes.set s.index b).length = w
        rw [List.length_set, hblen]
      · show (if w ≤ s.index + 1 then 0 else s.index + 1) < w
        by_cases hc : w ≤ s.index + 1
        · rw [if_pos hc]; omega
        · rw [if_neg hc]; omega
      · show (s.bytes.set s.index b).drop (if w ≤ s.index + 1 then 0 else s.index + 1)
            ++ (s.bytes.set s.index b).take (if w ≤ s.index + 1 then 0 else s.index + 1)
          = (p ++ [b]).drop ((p ++ [b]).length - w)
        rw [hlenApp, hnew_win]
        by_cases hc : w ≤ s.index + 1
        · have hnil : s.bytes.drop (s.index + 1) = [] :=
            List.drop_eq_nil_of_le (by omega)
          rw [if_pos hc, List.drop_zero, List.take_zero, List.append_nil, hset, hnil]
          simp
        · rw [if_neg hc, hset]
          have e1 : (s.bytes.take s.index ++ b :: s.bytes.drop (s.index + 1)).drop (s.index + 1)
              = s.bytes.drop (s.index + 1) := by
            rw [show s.index + 1 = (s.bytes.take s.index).length + 1 from by rw [htake],
              List.drop_append 1, List.drop_succ_cons, List.drop_zero]
          have e2 : (s.bytes.take s.index ++ b :: s.bytes.drop (s.index + 1)).take (s.index + 1)
              = s.bytes.take s.index ++ [b] := by
            rw [show s.index + 1 = (s.bytes.take s.index).length + 1 from by rw [htake],
              List.take_append 1, List.take_succ_cons, List.take_zero]
          rw [e1, e2, ← List.append_assoc]
      · show some (crc_open ((s.bytes.drop (s.index + 1) ++ s.bytes.take s.index) ++ [b]))
            = some (crc_open ((p ++ [b]).drop ((p ++ [b]).length - w)))
        rw [hlenApp, hnew_win]

theorem specOuts_length (w : Nat) (p : List Nat) :
    (specOuts w p).length = p.length + 1 - w := by
  simp [specOuts]

theorem specOuts_drop_cons (w : Nat) (full : List Nat) (k : Nat)
    (hk : k < full.length + 1 - w) :
    (specOuts w full).drop k
      = (k, calc_crc ((full.drop k).take w) CRC_TABLE) :: (specOuts w full).drop (k + 1) := by
  unfold specOuts
  have hk' : k < ((List.range (full.length + 1 - w)).map
      (fun i => (i, calc_crc ((full.drop i).take w) CRC_TABLE))).length := by
    simpa using hk
  rw [List.drop_eq_getElem_cons hk']
  congr 1
  simp

theorem window_take (pre rest : List Nat) (k w : Nat) (hk : pre.length = k + w) :
    ((pre ++ rest).drop k).take w = pre.drop k := by
  rw [List.drop_append_of_le_length (by omega)]
  exact List.take_left' (by rw [List.length_drop]; omega)

theorem pushRun_cons (s : RollingCRC) (b : Nat) (rest : List Nat)
    (s₁ s₂ : RollingCRC) (out : Option Nat) (outs : List (Nat × Nat))
    (hpush : s.push b = some (s₁, out)) (hrun : pushRun s₁ rest = some (s₂, outs)) :
    pushRun s (b :: rest) = some (s₂,
      (match out with
       | some crc => [(s₁.count - s₁.context.window_size, crc)]
       | none => []) ++ outs) := by
  cases out <;> simp only [pushRun, hpush, hrun]

/-- Running the stream adapter over any suffix `rest`, starting from a
state that has already consumed `p`, produces exactly the remaining
per-window checksums of `p ++ rest` and preserves the invariant. -/
theorem pushRun_spec (w : Nat) (hw : 1 ≤ w) :
    ∀ (rest p : List Nat) (s : RollingCRC), EngineInv w p s →
      (∀ x ∈ p ++ rest, x < 256) →
      ∃ s', pushRun s rest = some (s', (specOuts w (p ++ rest)).drop (p.length + 1 - w))
        ∧ EngineInv w (p ++ rest) s'
  | [], p, s, hInv, _ => by
    refine ⟨s, ?_, by rw [List.append_nil]; exact hInv⟩
    rw [List.append_nil,
      List.drop_eq_nil_of_le (le_of_eq (specOuts_length w p))]
    rfl
  | b :: rest, p, s, hInv, hb => by
    have hfull_eq : p ++ b :: rest = (p ++ [b]) ++ rest := by simp
    obtain ⟨s₁, hpush, hInv₁⟩ :=
      push_preserve w hw p s b hInv (fun x hx => hb x (List.mem_append_left _ hx))
    have hb' : ∀ x ∈ (p ++ [b]) ++ rest, x < 256 := by
      intro x hx
      apply hb
      rw [hfull_eq]
      exact hx
    obtain ⟨s', hrun, hInv'⟩ := pushRun_spec w hw rest (p ++ [b]) s₁ hInv₁ hb'
    have hc₁ : s₁.count = p.length + 1 := by
      have := hInv₁.2.1
      simpa using this
    have hw₁ : s₁.context.window_size = w := by rw [hInv₁.1, ctx_new_window]
    have hlen₁ : (p ++ [b]).length = p.length + 1 := by simp
    rw [hlen₁] at hrun
    refine ⟨s', ?_, by rw [hfull_eq]; exact hInv'⟩
    by_cases hcase : w ≤ p.length + 1
    · rw [if_pos hcase] at hpush
      rw [pushRun_cons s b rest s₁ s' _ _ hpush hrun, hfull_eq]
      show some (s', (s₁.count - s₁.context.window_size,
          calc_crc ((p ++ [b]).drop (p.length + 1 - w)) CRC_TABLE) ::
          (specOuts w ((p ++ [b]) ++ rest)).drop (p.length + 1 + 1 - w))
        = some (s', (specOuts w ((p ++ [b]) ++ rest)).drop (p.length + 1 - w))
      rw [hc₁, hw₁,
        specOuts_drop_cons w ((p ++ [b]) ++ rest) (p.length + 1 - w)
          (by simp; omega),
        window_take (p ++ [b]) rest (p.length + 1 - w) w (by simp; omega),
        show p.length + 1 - w + 1 = p.length + 1 + 1 - w from by omega]
    · rw [if_neg hcase] at hpush
      rw [pushRun_cons s b rest s₁ s' _ _ hpush hrun, hfull_eq]
      show some (s', (specOuts w ((p ++ [b]) ++ rest)).drop (p.length + 1 + 1 - w))
        = some (s', (specOuts w ((p ++ [b]) ++ rest)).drop (p.length + 1 - w))
      rw [show p.length + 1 + 1 - w = 0 from by omega,
        show p.length + 1 - w = 0 from by omega]

/-- Running a fresh engine (window size `w ≥ 1`) over a whole byte
stream `p` panics nowhere and emits exactly `specOuts w p`. -/
theorem pushRun_new (w : Nat) (hw : 1 ≤ w) (p : List Nat) (hp : ∀ x ∈ p, x < 256) :
    ∃ s', pushRun (RollingCRC.new (RollingCRCContext.new w)) p = some (s', specOuts w p)
      ∧ EngineInv w p s' := by
  obtain ⟨s', hrun, hInv⟩ := pushRun_spec w hw p [] (RollingCRC.new (RollingCRCContext.new w))
    (EngineInv_init w hw) (by simpa using hp)
  rw [List.nil_append] at hrun hInv
  rw [show List.length ([] : List Nat) + 1 - w = 0 from by simp; omega, List.drop_zero] at hrun
  exact ⟨s', hrun, hInv⟩

/-- With `window_size = 0` the engine only counts bytes: no checksum is
ever emitted and the window buffer is never touched. -/
theorem pushRun_zero : ∀ (bs : List Nat) (s : RollingCRC), s.context.window_size = 0 →
    pushRun s bs = some ({ s with count := s.count + bs.length }, [])
  | [], s, _ => by
    show some (s, []) = some ({ s with count := s.count + 0 }, [])
    rw [Nat.add_zero]
  | b :: bs, s, h => by
    rw [pushRun_cons s b bs { s with count := s.count + 1 } _ none []
      (push_zero s b h) (pushRun_zero bs { s with count := s.count + 1 } h)]
    have hl : s.count + (b :: bs).length = s.count + 1 + bs.length := by
      rw [List.length_cons]
      omega
    rw [hl]
    rfl

/-! ## The error-preserving adapter -/

theorem pushRunResult_cons_error {E : Type} (s : RollingCRC) (e : E)
    (rest : List (Except E Nat)) :
    pushRunResult s (Except.error e :: rest)
      = (pushRunResult s rest).map (fun r => (r.1, Except.error e :: r.2)) := by
  cases hrest : pushRunResult s rest with
  | none => simp [pushRunResult, hrest]
  | some r => simp [pushRunResult, hrest]

theorem pushRunResult_cons_ok_none {E : Type} (s : RollingCRC) (b : Nat)
    (rest : List (Except E Nat)) (hpush : s.push b = none) :
    pushRunResult s (Except.ok b :: rest) = none := by
  simp [pushRunResult, hpush]

theorem pushRunResult_cons_ok {E : Type} (s : RollingCRC) (b : Nat)
    (rest : List (Except E Nat)) (s₁ : RollingCRC) (out : Option Nat)
    (hpush : s.push b = some (s₁, out)) :
    pushRunResult s (Except.ok b :: rest)
      = (pushRunResult s₁ rest).map (fun r => (r.1,
          (match out with
           | some crc => [Except.ok (s₁.count - s₁.context.window_size, crc)]
           | none => []) ++ r.2)) := by
  cases hrest : pushRunResult s₁ rest with
  | none => cases out <;> simp [pushRunResult, hpush, hrest]
  | some r => cases out <;> simp [pushRunResult, hpush, hrest]

/-- An error item anywhere in the source is forwarded in place: the run
splits around it, with the engine state flowing through unchanged. -/
theorem pushRunResult_splice {E : Type} (e : E) :
    ∀ (xs ys : List (Except E Nat)) (s : RollingCRC),
      pushRunResult s (xs ++ Except.error e :: ys)
        = (pushRunResult s xs).bind (fun r₁ =>
            (pushRunResult r₁.1 ys).map (fun r₂ => (r₂.1, r₁.2 ++ Except.error e :: r₂.2)))
  | [], ys, s => by
    rw [List.nil_append, pushRunResult_cons_error]
    show _ = (some (s, ([] : List (Except E (Nat × Nat))))).bind _
    cases hys : pushRunResult s ys with
    | none => simp [hys]
    | some r₂ => simp [hys]
  | x :: xs, ys, s => by
    cases x with
    | error eP =>
      rw [List.cons_append, pushRunResult_cons_error, pushRunResult_cons_error,
        pushRunResult_splice e xs ys s]
      cases hxs : pushRunResult s xs with
      | none => simp
      | some r₁ =>
        cases hys : pushRunResult r₁.1 ys with
        | none => simp [hys]
        | some r₂ => simp [hys]
    | ok b =>
      cases hp : s.push b with
      | none =>
        rw [List.cons_append, pushRunResult_cons_ok_none s b _ hp,
          pushRunResult_cons_ok_none s b _ hp]
        rfl
      | some r₁ =>
        obtain ⟨s₁, out⟩ := r₁
        rw [List.cons_append, pushRunResult_cons_ok s b _ s₁ out hp,
          pushRunResult_cons_ok s b _ s₁ out hp, pushRunResult_splice e xs ys s₁]
        cases hxs : pushRunResult s₁ xs with
        | none => simp
        | some r₂ =>
          cases hys : pushRunResult r₂.1 ys with
          | none => simp [hys]
          | some r₃ => cases out <;> simp [hys]

/-- On an error-free source the result adapter behaves exactly as the
plain adapter, with every output wrapped in `Except.ok`. -/
theorem pushRunResult_map_ok {E : Type} :
    ∀ (bs : List Nat) (s : RollingCRC),
      pushRunResult (E := E) s (bs.map Except.ok)
        = (pushRun s bs).map (fun r => (r.1, r.2.map Except.ok))
  | [], _ => rfl
  | b :: bs, s => by
    rw [List.map_cons]
    cases hp : s.push b with
    | none =>
      rw [pushRunResult_cons_ok_none s b _ hp]
      simp [pushRun, hp]
    | some r₁ =>
      obtain ⟨s₁, out⟩ := r₁
      rw [pushRunResult_cons_ok s b _ s₁ out hp, pushRunResult_map_ok bs s₁]
      cases hr : pushRun s₁ bs with
      | none => simp [pushRun, hp, hr]
      | some r₂ => cases out <;> simp [pushRun, hp, hr]

/-! ## Claim theorems -/

set_option maxRecDepth 100000 in
theorem tbl_zero : tblGet CRC_TABLE 0 = 0 := by decide

/-- C1: For every window size `w ≥ 1` and every byte stream `s` of
length `n ≥ w`, the checksum stream produced by `RollingCRC::iter`
emits at every position `i` (`0 ≤ i ≤ n - w`) exactly the closed CRC
that `RollingCRCContext::crc` computes by direct recomputation over the
window `s[i .. i+w]`: the O(1) rolling-update path agrees with the
naive full fold at every emitted position. -/
theorem C1_rolling_equals_recompute (w : Nat) (s : List Nat) (hw : 1 ≤ w)
    (hs : ∀ b ∈ s, b < 256) (hn : w ≤ s.length) :
    (pushRun (RollingCRC.new (RollingCRCContext.new w)) s).map Prod.snd
      = some ((List.range (s.length - w + 1)).map
          (fun i => (i, (RollingCRCContext.new w).crc ((s.drop i).take w)))) := by
  obtain ⟨s', hrun, _⟩ := pushRun_new w hw s hs
  rw [hrun]
  unfold specOuts
  rw [show s.length + 1 - w = s.length - w + 1 from by omega]
  simp only [ctx_new_crc]
  rfl

theorem C1_witness :
    (pushRun (RollingCRC.new (RollingCRCContext.new 2)) [10, 20, 30]).map Prod.snd
      = some ((List.range (([10, 20, 30] : List Nat).length - 2 + 1)).map
          (fun i => (i, (RollingCRCContext.new 2).crc ((([10, 20, 30] : List Nat).drop i).take 2)))) :=
  C1_rolling_equals_recompute 2 [10, 20, 30] (by decide) (by decide) (by decide)

/-- C2: for every window size `w ≥ 1` and all bytes `b₀, …, b_w` (here
`b₀ :: t ++ [b_w]` with `t` of length `w - 1`), letting `A` be the open
accumulator of `b₀ … b_{w-1}` (the fold of `update_crc` seeded with
`0xFFFFFFFF`, not finalised), `update_crc A b_w` XORed with the rolling
table entry for the evicted byte `b₀` equals the open accumulator of
`b₁ … b_w`. -/
theorem C2_rolling_table_contract (w : Nat) (hw : 1 ≤ w) (b0 : Nat) (t : List Nat)
    (bw : Nat) (hb : ∀ x ∈ b0 :: t ++ [bw], x < 256) (ht : t.length = w - 1) :
    update_crc (crc_open (b0 :: t)) CRC_TABLE bw
      ^^^ tblGet (make_rolling_crc_table w CRC_TABLE) b0
      = crc_open (t ++ [bw]) :=
  roll_step w hw b0 (hb b0 (List.mem_cons_self _ _)) t ht bw

theorem C2_witness :
    update_crc (crc_open [4]) CRC_TABLE 7
      ^^^ tblGet (make_rolling_crc_table 1 CRC_TABLE) 4
      = crc_open [7] :=
  C2_rolling_table_contract 1 (by decide) 4 [] 7 (by decide) rfl

/-- C3: `RollingCRCContext::crc` (i.e. `calc_crc`) is the straight fold
of the single-byte update rule `update_crc` seeded with `0xFFFFFFFF`
and finalised by XOR with `0xFFFFFFFF`, and it equals an independently
implemented bit-serial CRC-32/ISO-3309 on every byte sequence. -/
theorem C3_crc_is_standard (w : Nat) (s : List Nat) (hs : ∀ b ∈ s, b < 256) :
    (RollingCRCContext.new w).crc s
        = finish_crc (s.foldl (fun crc c => update_crc crc CRC_TABLE c) INIT_CRC)
      ∧ (RollingCRCContext.new w).crc s = crc32_ref s := by
  constructor
  · rw [ctx_new_crc]
    rfl
  · rw [ctx_new_crc]
    exact calc_crc_ref s hs

theorem C3_witness :
    (RollingCRCContext.new 0).crc [104, 101, 108, 108, 111, 32, 119, 111, 114, 108, 100]
        = finish_crc (([104, 101, 108, 108, 111, 32, 119, 111, 114, 108, 100] : List Nat).foldl
            (fun crc c => update_crc crc CRC_TABLE c) INIT_CRC)
      ∧ (RollingCRCContext.new 0).crc [104, 101, 108, 108, 111, 32, 119, 111, 114, 108, 100]
        = crc32_ref [104, 101, 108, 108, 111, 32, 119, 111, 114, 108, 100] :=
  C3_crc_is_standard 0 [104, 101, 108, 108, 111, 32, 119, 111, 114, 108, 100] (by decide)

/-- C4: for every window size `w ≥ 1` and every finite input of length
`n`, the iterator returned by `RollingCRC::iter` emits exactly
`max(0, n - w + 1) = n + 1 - w` pairs, whose positions form the
contiguous sequence `0, 1, …, n - w`. -/
theorem C4_position_accounting (w : Nat) (s : List Nat) (hw : 1 ≤ w)
    (hs : ∀ b ∈ s, b < 256) :
    ∃ fin outs, pushRun (RollingCRC.new (RollingCRCContext.new w)) s = some (fin, outs)
      ∧ outs.length = s.length + 1 - w
      ∧ outs.map Prod.fst = List.range (s.length + 1 - w) := by
  obtain ⟨s', hrun, _⟩ := pushRun_new w hw s hs
  refine ⟨s', specOuts w s, hrun, specOuts_length w s, ?_⟩
  unfold specOuts
  rw [List.map_map,
    show (Prod.fst ∘ fun i : Nat => (i, calc_crc (List.take w (List.drop i s)) CRC_TABLE)) = id
      from rfl, List.map_id]

theorem C4_witness :
    ∃ fin outs, pushRun (RollingCRC.new (RollingCRCContext.new 3)) [1, 2] = some (fin, outs)
      ∧ outs.length = ([1, 2] : List Nat).length + 1 - 3
      ∧ outs.map Prod.fst = List.range (([1, 2] : List Nat).length + 1 - 3) :=
  C4_position_accounting 3 [1, 2] (by decide) (by decide)

/-- C5 counterexample: with `window_size = 0`, pushing a byte into a
fresh engine does NOT append it to the window buffer (the buffer stays
empty), contradicting the claim that a Filling-state push "appends the
pushed byte to the window buffer". -/
theorem C5_counterexample :
    ¬ ((RollingCRC.new (RollingCRCContext.new 0)).push 5).map (fun r => r.1.bytes)
        = some [5] := by
  decide

/-- C5 (amended): in the Filling state with `w ≥ 1` (`count < w` after
the push is counted) `push` appends the pushed byte to the window
buffer and returns no checksum; with `window_size = 0` every push
returns no checksum unconditionally, leaves the window buffer
unchanged, and consequently the engine never emits a checksum no
matter how many bytes are pushed. -/
theorem C5_filling_behaviour :
    (∀ (s : RollingCRC) (b : Nat), s.context.window_size ≠ 0 →
        s.count + 1 < s.context.window_size →
        s.push b = some ({ s with count := s.count + 1, bytes := s.bytes ++ [b] }, none))
    ∧ (∀ (s : RollingCRC) (b : Nat), s.context.window_size = 0 →
        s.push b = some ({ s with count := s.count + 1 }, none))
    ∧ (∀ (bs : List Nat) (s : RollingCRC), s.context.window_size = 0 →
        pushRun s bs = some ({ s with count := s.count + bs.length }, [])) :=
  ⟨push_filling, push_zero, fun bs s h => pushRun_zero bs s h⟩

theorem C5_witness :
    (RollingCRC.new (RollingCRCContext.new 3)).push 9
        = some ({ RollingCRC.new (RollingCRCContext.new 3) with
            count := (RollingCRC.new (RollingCRCContext.new 3)).count + 1,
            bytes := (RollingCRC.new (RollingCRCContext.new 3)).bytes ++ [9] }, none)
      ∧ (RollingCRC.new (RollingCRCContext.new 0)).push 9
        = some ({ RollingCRC.new (RollingCRCContext.new 0) with
            count := (RollingCRC.new (RollingCRCContext.new 0)).count + 1 }, none) :=
  ⟨C5_filling_behaviour.1 (RollingCRC.new (RollingCRCContext.new 3)) 9
      (by decide) (by decide),
    C5_filling_behaviour.2.1 (RollingCRC.new (RollingCRCContext.new 0)) 9 rfl⟩

/-- C6: in the error-preserving adapter (`RollingCRC::iter_result`,
`RollingCRCMapResult::next`), every `Err` item of the source is
forwarded in place in the output order without being pushed into the
engine and without advancing the engine state, and on error-free
segments the `Ok` outputs are exactly those of the plain adapter. -/
theorem C6_error_passthrough :
    (∀ (E : Type) (e : E) (xs ys : List (Except E Nat)) (s : RollingCRC),
        pushRunResult s (xs ++ Except.error e :: ys)
          = (pushRunResult s xs).bind (fun r₁ =>
              (pushRunResult r₁.1 ys).map (fun r₂ => (r₂.1, r₁.2 ++ Except.error e :: r₂.2))))
    ∧ (∀ (E : Type) (bs : List Nat) (s : RollingCRC),
        pushRunResult (E := E) s (bs.map Except.ok)
          = (pushRun s bs).map (fun r => (r.1, r.2.map Except.ok))) :=
  ⟨fun _ e xs ys s => pushRunResult_splice e xs ys s,
    fun _ bs s => pushRunResult_map_ok bs s⟩

/-- C7: every engine state reachable from `RollingCRC::new` by a finite
sequence of pushes satisfies `window.length = min(count, window_size)`
and `last_crc.isSome ↔ count ≥ window_size ≥ 1`; in particular the run
never panics, so the `expect("internal error: lost CRC")` and the
window-length `assert!` inside `push` are unreachable through the
public interface. -/
theorem C7_reachable_invariants (w : Nat) (bs : List Nat) (hb : ∀ x ∈ bs, x < 256) :
    ∃ s outs, pushRun (RollingCRC.new (RollingCRCContext.new w)) bs = some (s, outs)
      ∧ s.bytes.length = min s.count s.context.window_size
      ∧ (s.last_crc.isSome ↔ (s.context.window_size ≤ s.count ∧ 1 ≤ s.context.window_size)) := by
  rcases Nat.eq_zero_or_pos w with h0 | hw
  · subst h0
    refine ⟨_, _, pushRun_zero bs _ rfl, ?_, ?_⟩
    · show ([] : List Nat).length = min (0 + bs.length) ((RollingCRCContext.new 0).window_size)
      rw [ctx_new_window]
      simp
    · simp [RollingCRC.new, ctx_new_window]
  · obtain ⟨s', hrun, hInv⟩ := pushRun_new w hw bs hb
    obtain ⟨hctx, hcount, hfill, hfull⟩ := hInv
    by_cases hlt : bs.length < w
    · obtain ⟨hbytes, _, hlast⟩ := hfill hlt
      refine ⟨s', _, hrun, ?_, ?_⟩
      · rw [hbytes, hcount, hctx, ctx_new_window]
        exact (min_eq_left (by omega)).symm
      · rw [hlast, hcount, hctx, ctx_new_window]
        simp
        omega
    · obtain ⟨hblen, _, _, hlast⟩ := hfull (by omega)
      refine ⟨s', _, hrun, ?_, ?_⟩
      · rw [hblen, hcount, hctx, ctx_new_window]
        exact (min_eq_right (by omega)).symm
      · rw [hlast, hcount, hctx, ctx_new_window]
        simp
        omega

theorem C7_witness :
    ∃ s outs, pushRun (RollingCRC.new (RollingCRCContext.new 2)) [1, 2, 3] = some (s, outs)
      ∧ s.bytes.length = min s.count s.context.window_size
      ∧ (s.last_crc.isSome ↔ (s.context.window_size ≤ s.count ∧ 1 ≤ s.context.window_size)) :=
  C7_reachable_invariants 2 [1, 2, 3] (by decide)

set_option maxRecDepth 1000000 in
/-- C8 counterexample: at window size `w = 1` and byte `x = 0` the entry
of the table built by `make_rolling_crc_table` differs from
`CRC_open(X) ^^^ CRC_open(Y)` with `Y` of `w + 1 = 2` zero bytes, as the
claim demands (the code folds only `w` zero bytes into the `y` chain). -/
theorem C8_counterexample :
    ¬ tblGet (make_rolling_crc_table 1 CRC_TABLE) 0
        = crc_open (0 :: List.replicate 1 0) ^^^ crc_open (List.replicate 2 0) := by
  decide

/-- C8 (amended): for every window size `w ≥ 1` and byte `x`, the entry
of the table built by `make_rolling_crc_table` equals
`CRC_open(X) ^^^ CRC_open(Y)` where `X` is the byte `x` followed by `w`
zero bytes, `Y` is `w` (not `w + 1`) zero bytes, and `CRC_open` is the
fold of `update_crc` seeded with `0xFFFFFFFF` without finalisation. -/
theorem C8_rolling_table_entries (w x : Nat) (hw : 1 ≤ w) (hx : x < 256) :
    tblGet (make_rolling_crc_table w CRC_TABLE) x
      = crc_open (x :: List.replicate w 0) ^^^ crc_open (List.replicate w 0) :=
  rolling_table_entry w x hw hx

theorem C8_witness :
    tblGet (make_rolling_crc_table 2 CRC_TABLE) 3
      = crc_open (3 :: List.replicate 2 0) ^^^ crc_open (List.replicate 2 0) :=
  C8_rolling_table_entries 2 3 (by decide) (by decide)

set_option maxRecDepth 1000000 in
/-- C9 counterexample: already at the equal-length sequences `X = [0]`
and `Y = [0]`, `CRC_open(X) ^^^ CRC_open(Y) = 0` while
`CRC_open(X XOR Y) = CRC_open([0]) ≠ 0`: the INIT-seeded open CRC is
not linear as claimed. -/
theorem C9_counterexample :
    ¬ crc_open [0] ^^^ crc_open [0]
        = crc_open (List.zipWith (fun x y => x ^^^ y) [0] [0]) := by
  decide

/-- C9 (amended): for equal-length byte sequences `X` and `Y`,
`CRC_open(X) ^^^ CRC_open(Y)` equals the fold of `update_crc` over the
bytewise XOR `X XOR Y` seeded with `0` instead of the initialization
constant: the INIT-seeded open CRC is affine, and the two copies of the
seed cancel in the XOR. -/
theorem C9_open_crc_linearity (X Y : List Nat) (h : X.length = Y.length) :
    crc_open X ^^^ crc_open Y
      = (List.zipWith (fun x y => x ^^^ y) X Y).foldl
          (fun crc c => update_crc crc CRC_TABLE c) 0 := by
  unfold crc_open
  rw [foldl_update_hom X Y INIT_CRC INIT_CRC h, Nat.xor_self]

theorem C9_witness :
    crc_open [1] ^^^ crc_open [2]
      = (List.zipWith (fun x y => x ^^^ y) [1] [2]).foldl
          (fun crc c => update_crc crc CRC_TABLE c) 0 :=
  C9_open_crc_linearity [1] [2] rfl

/-- C10: the base table built by `make_crc_table` is XOR-linear in its
index (`table[0] = 0` and `table[i ^^^ j] = table[i] ^^^ table[j]` for
byte indices), and therefore the single-byte update is XOR-homomorphic
in the accumulator-byte pair: for all 32-bit accumulators and bytes,
`update_crc a₁ c₁ ^^^ update_crc a₂ c₂ = update_crc (a₁ ^^^ a₂) (c₁ ^^^ c₂)`. -/
theorem C10_table_linearity :
    tblGet CRC_TABLE 0 = 0
    ∧ (∀ i j : Nat, i < 256 → j < 256 →
        tblGet CRC_TABLE (i ^^^ j) = tblGet CRC_TABLE i ^^^ tblGet CRC_TABLE j)
    ∧ (∀ a₁ a₂ c₁ c₂ : Nat, a₁ < 2 ^ 32 → a₂ < 2 ^ 32 → c₁ < 256 → c₂ < 256 →
        update_crc a₁ CRC_TABLE c₁ ^^^ update_crc a₂ CRC_TABLE c₂
          = update_crc (a₁ ^^^ a₂) CRC_TABLE (c₁ ^^^ c₂)) :=
  ⟨tbl_zero, fun i j hi hj => tbl_linear i j hi hj,
    fun a₁ a₂ c₁ c₂ _ _ _ _ => update_crc_hom a₁ a₂ c₁ c₂⟩

theorem C10_witness :
    tblGet CRC_TABLE (3 ^^^ 5) = tblGet CRC_TABLE 3 ^^^ tblGet CRC_TABLE 5
      ∧ update_crc 7 CRC_TABLE 9 ^^^ update_crc 11 CRC_TABLE 13
        = update_crc (7 ^^^ 11) CRC_TABLE (9 ^^^ 13) :=
  ⟨C10_table_linearity.2.1 3 5 (by decide) (by decide),
    C10_table_linearity.2.2 7 11 9 13 (by decide) (by decide) (by decide) (by decide)⟩
